import Mathlib

/- Verification of the quantile-calibration core of the `calibrated-uncertainty`
repository. The empirical-CDF computation is embedded from `calibration_plot`
in `report/plotting.py`; the predictive-quantile estimator, the isotonic
calibration fitter and the error taxonomy are modelled from the specification,
as marked on each definition. Real-valued arrays are embedded as `List ℚ`. -/

namespace CalibratedUncertainty

/-- The 11 equally spaced expected quantile levels of `calibration_plot`
(`np.linspace(0, 1, num=11)` in `report/plotting.py`). -/
def expected_quantiles : List ℚ :=
  (List.range 11).map (fun i => (i : ℚ) / 10)

/-- The empirical-CDF step of `calibration_plot` in `report/plotting.py`: for each
level `p` of `levels`, the fraction of entries of `qs` that are at most `p`, that is
`(qs.reshape(1, -1) <= levels).sum(axis=1) / T` with `T = qs.shape[0]`. -/
def empirical_cdf_at (qs levels : List ℚ) : List ℚ :=
  levels.map (fun p => ((qs.countP (fun q => decide (q ≤ p))) : ℚ) / (qs.length : ℚ))

/-- The `observed_uncalibrated` array of `calibration_plot`: the empirical CDF of the
predicted quantiles evaluated at the 11 expected levels. -/
def observed_uncalibrated (predicted_quantiles : List ℚ) : List ℚ :=
  empirical_cdf_at predicted_quantiles expected_quantiles

/-- The expected levels evaluate to the decimal grid 0, 0.1, ..., 1. -/
theorem expected_quantiles_eq :
    expected_quantiles =
      [0, 1/10, 2/10, 3/10, 4/10, 5/10, 6/10, 7/10, 8/10, 9/10, 1] := by
  norm_num [expected_quantiles, List.range_succ]

/-- C1: for a non-empty quantile sequence, each entry of the empirical-CDF step is
exactly the number of raw quantiles at most the corresponding expected level,
divided by the total number of raw quantiles. -/
theorem observed_uncalibrated_entry (qs : List ℚ) (_hqs : qs ≠ []) (i : ℕ) (hi : i < 11) :
    (observed_uncalibrated qs).getD i 0 =
      ((qs.countP (fun q => decide (q ≤ expected_quantiles.getD i 0))) : ℚ) /
        (qs.length : ℚ) := by
  rw [observed_uncalibrated, empirical_cdf_at, expected_quantiles_eq]
  interval_cases i <;> rfl

/-- C1 witness at a concrete input. -/
theorem observed_uncalibrated_entry_witness :
    ([(1 : ℚ)/4, 3/4] ≠ [] ∧ 2 < 11) ∧
      (observed_uncalibrated [(1 : ℚ)/4, 3/4]).getD 2 0 =
        (([(1 : ℚ)/4, 3/4].countP (fun q => decide (q ≤ expected_quantiles.getD 2 0))) : ℚ) /
          (([(1 : ℚ)/4, 3/4].length) : ℚ) :=
  ⟨⟨by decide, by decide⟩, observed_uncalibrated_entry [(1 : ℚ)/4, 3/4] (by decide) 2 (by decide)⟩

/-- C3: on raw quantiles `[0.1, 0.2, 0.9, 0.95]` and levels `[0, 0.25, 0.5, 0.75, 1]`
the empirical-CDF step returns `[0, 0.5, 0.5, 0.5, 1]`. -/
theorem empirical_cdf_concrete :
    empirical_cdf_at [1/10, 2/10, 9/10, 95/100] [0, 1/4, 1/2, 3/4, 1] =
      [0, 1/2, 1/2, 1/2, 1] := by
  norm_num [empirical_cdf_at, List.countP_cons]

/-- Modelled from the spec: the Predictive Quantile Estimator (spec section 4.1) lives
in the repository's `helpers.ipynb`, which is absent from the source tree; per the
contract, the quantile is `(count of samples ≤ y) / T` with `T` the sample count. -/
def predictive_quantile (samples : List ℚ) (y : ℚ) : ℚ :=
  ((samples.countP (fun s => decide (s ≤ y))) : ℚ) / (samples.length : ℚ)

/-- C2: the predictive quantile is the fraction of samples at most `y`; it is 1 when
every sample is strictly below `y`, 0 when no sample is at or below `y` ("none are
below"), and 3/5 = 0.6 on the scenario samples = [-1, 0, 0, 1, 2], y = 0. -/
theorem predictive_quantile_spec (samples : List ℚ) (y : ℚ) (hT : 1 ≤ samples.length) :
    predictive_quantile samples y =
        ((samples.countP (fun s => decide (s ≤ y))) : ℚ) / (samples.length : ℚ) ∧
      ((∀ s ∈ samples, s < y) → predictive_quantile samples y = 1) ∧
      ((∀ s ∈ samples, y < s) → predictive_quantile samples y = 0) ∧
      predictive_quantile [-1, 0, 0, 1, 2] 0 = 3/5 := by
  have hlen : (samples.length : ℚ) ≠ 0 := Nat.cast_ne_zero.mpr (by omega)
  refine ⟨rfl, ?_, ?_, ?_⟩
  · intro h
    have hcount : samples.countP (fun s => decide (s ≤ y)) = samples.length := by
      rw [List.countP_eq_length]
      intro a ha
      simpa using le_of_lt (h a ha)
    rw [predictive_quantile, hcount, div_self hlen]
  · intro h
    have hcount : samples.countP (fun s => decide (s ≤ y)) = 0 := by
      rw [List.countP_eq_zero]
      intro a ha
      simpa using h a ha
    rw [predictive_quantile, hcount]
    simp
  · norm_num [predictive_quantile, List.countP_cons]

/-- C2 witness at the spec's concrete scenario. -/
theorem predictive_quantile_spec_witness :
    1 ≤ List.length [(-1 : ℚ), 0, 0, 1, 2] ∧
      (predictive_quantile [(-1 : ℚ), 0, 0, 1, 2] 0 =
          ((List.countP (fun s => decide (s ≤ (0 : ℚ))) [(-1 : ℚ), 0, 0, 1, 2]) : ℚ) /
            ((List.length [(-1 : ℚ), 0, 0, 1, 2]) : ℚ) ∧
        ((∀ s ∈ [(-1 : ℚ), 0, 0, 1, 2], s < 0) →
          predictive_quantile [(-1 : ℚ), 0, 0, 1, 2] 0 = 1) ∧
        ((∀ s ∈ [(-1 : ℚ), 0, 0, 1, 2], 0 < s) →
          predictive_quantile [(-1 : ℚ), 0, 0, 1, 2] 0 = 0) ∧
        predictive_quantile [-1, 0, 0, 1, 2] 0 = 3/5) :=
  ⟨by norm_num, predictive_quantile_spec [(-1 : ℚ), 0, 0, 1, 2] 0 (by norm_num)⟩

/-- C9: the empirical-CDF fractions depend on the multiset of raw quantiles only:
permuting the observations leaves `observed_uncalibrated` unchanged. -/
theorem observed_uncalibrated_perm (qs qs' : List ℚ) (h : qs.Perm qs') :
    observed_uncalibrated qs = observed_uncalibrated qs' := by
  unfold observed_uncalibrated empirical_cdf_at
  refine List.map_congr_left ?_
  intro p _
  rw [h.countP_eq, h.length_eq]

/-- C9 witness: swapping two observations leaves the fractions unchanged. -/
theorem observed_uncalibrated_perm_witness :
    List.Perm [(0 : ℚ), 1] [(1 : ℚ), 0] ∧
      observed_uncalibrated [(0 : ℚ), 1] = observed_uncalibrated [(1 : ℚ), 0] :=
  ⟨List.Perm.swap 1 0 [], observed_uncalibrated_perm [0, 1] [1, 0] (List.Perm.swap 1 0 [])⟩

/-- The expected levels are strictly increasing. -/
lemma expected_quantiles_strict_sorted :
    List.Pairwise (· < ·) expected_quantiles := by
  rw [expected_quantiles_eq]
  norm_num [List.pairwise_cons]

/-- The empirical-CDF fractions of a non-empty quantile list are non-decreasing
along the expected levels. -/
lemma observed_uncalibrated_sorted (qs : List ℚ) :
    List.Pairwise (· ≤ ·) (observed_uncalibrated qs) := by
  unfold observed_uncalibrated empirical_cdf_at
  rw [List.pairwise_map]
  have hmono : ∀ p p' : ℚ, p ≤ p' →
      ((qs.countP (fun q => decide (q ≤ p))) : ℚ) / (qs.length : ℚ) ≤
        ((qs.countP (fun q => decide (q ≤ p'))) : ℚ) / (qs.length : ℚ) := by
    intro p p' hpp
    rcases eq_or_ne qs [] with rfl | hqs
    · simp
    have hT : 0 < (qs.length : ℚ) := by
      exact_mod_cast List.length_pos.mpr hqs
    have hcount : qs.countP (fun q => decide (q ≤ p)) ≤
        qs.countP (fun q => decide (q ≤ p')) := by
      refine List.countP_mono_left ?_
      intro x _ hx
      simp only [decide_eq_true_eq] at hx ⊢
      exact hx.trans hpp
    exact div_le_div_of_nonneg_right (by exact_mod_cast hcount) hT.le
  exact (expected_quantiles_strict_sorted.imp fun h => le_of_lt h).imp
    fun {a b} h => hmono a b h

/-- Every empirical-CDF fraction of a non-empty quantile list lies in `[0, 1]`. -/
lemma observed_uncalibrated_bounds (qs : List ℚ) (hqs : qs ≠ []) :
    ∀ v ∈ observed_uncalibrated qs, 0 ≤ v ∧ v ≤ 1 := by
  have hT : 0 < (qs.length : ℚ) := by
    exact_mod_cast List.length_pos.mpr hqs
  intro v hv
  simp only [observed_uncalibrated, empirical_cdf_at, List.mem_map] at hv
  obtain ⟨p, _, rfl⟩ := hv
  refine ⟨by positivity, ?_⟩
  rw [div_le_one hT]
  exact_mod_cast List.countP_le_length (fun q => decide (q ≤ p))

/-- C10: for a non-empty input, the observed uncalibrated fractions are
monotonically non-decreasing along the 11 increasing levels, with every entry
in `[0, 1]`. -/
theorem observed_uncalibrated_monotone_bounded (qs : List ℚ) (hqs : qs ≠ []) :
    List.Chain' (· ≤ ·) (observed_uncalibrated qs) ∧
      ∀ v ∈ observed_uncalibrated qs, 0 ≤ v ∧ v ≤ 1 :=
  ⟨(observed_uncalibrated_sorted qs).chain', observed_uncalibrated_bounds qs hqs⟩

/-- C10 witness at a concrete one-element input. -/
theorem observed_uncalibrated_monotone_bounded_witness :
    ([(1 : ℚ)/2] ≠ []) ∧
      (List.Chain' (· ≤ ·) (observed_uncalibrated [(1 : ℚ)/2]) ∧
        ∀ v ∈ observed_uncalibrated [(1 : ℚ)/2], 0 ≤ v ∧ v ≤ 1) :=
  ⟨by simp, observed_uncalibrated_monotone_bounded [(1 : ℚ)/2] (by simp)⟩

/-- Modelled from the spec: one pool-adjacent-violators merge step of the isotonic
regression (spec sections 4.2 and 9); the fitter itself is outside the source tree
(the fitted model is only consumed via `model.predict` in `report/plotting.py`).
A block carries its pooled mean and the number of pooled training points; the head
of the stack is the most recent block, and a new block is merged leftwards while
its mean is below the mean of the previous block. -/
def pushBlock : (ℚ × ℕ) → List (ℚ × ℕ) → List (ℚ × ℕ)
  | b, [] => [b]
  | b, c :: rest =>
    if b.1 < c.1 then
      pushBlock
        ((b.1 * (b.2 : ℚ) + c.1 * (c.2 : ℚ)) / ((b.2 : ℚ) + (c.2 : ℚ)), b.2 + c.2) rest
    else b :: c :: rest

/-- Modelled from the spec: the pool-adjacent-violators pass over the training
targets, processed left to right. -/
def pavaBlocks (ys : List ℚ) : List (ℚ × ℕ) :=
  ys.foldl (fun st y => pushBlock (y, 1) st) []

/-- Modelled from the spec: the fitted isotonic values, one per training point,
obtained by expanding each block to its pooled mean. -/
def pavaFit (ys : List ℚ) : List ℚ :=
  ((pavaBlocks ys).reverse).flatMap (fun b => List.replicate b.2 b.1)

/-- Clipping to the unit interval. -/
def clip01 (q : ℚ) : ℚ := max 0 (min 1 q)

/-- Modelled from the spec: the fitted monotone step function. `stepLookup pairs q`
returns the fitted value attached to the greatest training input at most `q`
(the first fitted value below the training range); on an empty training set it
degenerates to the identity. -/
def stepLookup : List (ℚ × ℚ) → ℚ → ℚ
  | [], q => q
  | [(_, y)], _ => y
  | (_, y) :: (x', y') :: rest, q =>
    if q < x' then y else stepLookup ((x', y') :: rest) q

/-- Modelled from the spec: the Calibration Applicator's forward transform, the
fitted map's value clipped to `[0, 1]` (spec section 4.3). -/
def forward (m : List (ℚ × ℚ)) (q : ℚ) : ℚ := clip01 (stepLookup m q)

/-- Modelled from the spec: the approximate inverse transform, inverting the fitted
step function by looking the target probability up on the swapped pairs. -/
def inverse (m : List (ℚ × ℚ)) (p : ℚ) : ℚ :=
  stepLookup (m.map (fun b => (b.2, b.1))) p

/-- Modelled from the spec: the Calibration Fitter pairs the expected levels with
the isotonic fit of the observed empirical fractions. -/
def fitIsotonic (xs ys : List ℚ) : List (ℚ × ℚ) := xs.zip (pavaFit ys)

/-- Pushing a positive-count block onto a stack of positive-count blocks keeps all
counts positive. -/
lemma pushBlock_pos (b : ℚ × ℕ) (st : List (ℚ × ℕ)) (hb : 0 < b.2)
    (hst : ∀ c ∈ st, 0 < c.2) : ∀ c ∈ pushBlock b st, 0 < c.2 := by
  induction st generalizing b with
  | nil => simpa [pushBlock] using hb
  | cons c rest ih =>
    simp only [pushBlock]
    by_cases hbc : b.1 < c.1
    · rw [if_pos hbc]
      refine ih _ ?_ (fun d hd => hst d (List.mem_cons_of_mem _ hd))
      have := hst c (List.mem_cons_self _ _)
      simpa using Nat.add_pos_left hb _
    · rw [if_neg hbc]
      intro d hd
      rcases List.mem_cons.mp hd with rfl | hd'
      · exact hb
      · exact hst d hd'

/-- Pushing a block preserves the sortedness of the stack: block means stay
non-increasing from the most recent block to the oldest. -/
lemma pushBlock_sorted (b : ℚ × ℕ) (st : List (ℚ × ℕ))
    (hst : List.Pairwise (fun u v => v.1 ≤ u.1) st) :
    List.Pairwise (fun u v => v.1 ≤ u.1) (pushBlock b st) := by
  induction st generalizing b with
  | nil => simp [pushBlock]
  | cons c rest ih =>
    simp only [pushBlock]
    by_cases hbc : b.1 < c.1
    · rw [if_pos hbc]
      exact ih _ (List.Pairwise.sublist (List.sublist_cons_self c rest) hst)
    · rw [if_neg hbc]
      have hst' := (List.pairwise_cons.mp hst).1
      rw [List.pairwise_cons]
      refine ⟨?_, hst⟩
      intro z hz
      rcases List.mem_cons.mp hz with rfl | hz'
      · exact le_of_not_lt hbc
      · exact (hst' z hz').trans (le_of_not_lt hbc)

/-- The block stack produced by the pool-adjacent-violators pass has positive
counts and non-increasing means. -/
lemma pavaBlocks_invariant (ys : List ℚ) :
    (∀ c ∈ pavaBlocks ys, 0 < c.2) ∧
      List.Pairwise (fun u v => v.1 ≤ u.1) (pavaBlocks ys) := by
  suffices h : ∀ (l : List ℚ) (st : List (ℚ × ℕ)), (∀ c ∈ st, 0 < c.2) →
      List.Pairwise (fun u v => v.1 ≤ u.1) st →
      (∀ c ∈ List.foldl (fun s y => pushBlock (y, 1) s) st l, 0 < c.2) ∧
        List.Pairwise (fun u v => v.1 ≤ u.1)
          (List.foldl (fun s y => pushBlock (y, 1) s) st l) by
    exact h ys [] (by simp) (by simp)
  intro l
  induction l with
  | nil => intro st h1 h2; exact ⟨h1, h2⟩
  | cons y l ih =>
    intro st h1 h2
    simp only [List.foldl_cons]
    exact ih _ (pushBlock_pos _ _ (by norm_num) h1) (pushBlock_sorted _ _ h2)

/-- The fitted isotonic values are non-decreasing, by construction of the fitting
pass rather than by any post-hoc correction of the outputs. -/
lemma pavaFit_sorted (ys : List ℚ) : List.Pairwise (· ≤ ·) (pavaFit ys) := by
  unfold pavaFit
  rw [List.pairwise_flatMap]
  constructor
  · intro b _
    rw [List.pairwise_replicate]
    exact Or.inr le_rfl
  · have h : List.Pairwise (fun u v => u.1 ≤ v.1) (pavaBlocks ys).reverse := by
      rw [List.pairwise_reverse]
      exact (pavaBlocks_invariant ys).2
    refine h.imp ?_
    intro u v huv x hx z hz
    rw [List.eq_of_mem_replicate hx, List.eq_of_mem_replicate hz]
    exact huv

/-- The step lookup on a non-empty training list returns one of the fitted values. -/
lemma stepLookup_mem (pairs : List (ℚ × ℚ)) (hne : pairs ≠ []) (q : ℚ) :
    stepLookup pairs q ∈ pairs.map Prod.snd := by
  induction pairs with
  | nil => exact absurd rfl hne
  | cons u rest ih =>
    cases rest with
    | nil =>
      obtain ⟨x, y⟩ := u
      simp [stepLookup]
    | cons v rest' =>
      obtain ⟨x, y⟩ := u
      obtain ⟨x', y'⟩ := v
      simp only [stepLookup]
      by_cases hq : q < x'
      · rw [if_pos hq]
        simp
      · rw [if_neg hq]
        exact List.mem_cons_of_mem _ (ih (by simp))

/-- The step lookup is monotone in its argument whenever the fitted values are
non-decreasing. -/
lemma stepLookup_mono (pairs : List (ℚ × ℚ))
    (hys : List.Pairwise (· ≤ ·) (pairs.map Prod.snd)) {a b : ℚ} (hab : a ≤ b) :
    stepLookup pairs a ≤ stepLookup pairs b := by
  induction pairs with
  | nil => simpa [stepLookup] using hab
  | cons u rest ih =>
    cases rest with
    | nil =>
      obtain ⟨x, y⟩ := u
      simp [stepLookup]
    | cons v rest' =>
      obtain ⟨x, y⟩ := u
      obtain ⟨x', y'⟩ := v
      simp only [List.map_cons, List.pairwise_cons] at hys
      obtain ⟨h1, hys'⟩ := hys
      simp only [stepLookup]
      by_cases hb : b < x'
      · rw [if_pos (lt_of_le_of_lt hab hb), if_pos hb]
      · rw [if_neg hb]
        by_cases ha : a < x'
        · rw [if_pos ha]
          have hmem := stepLookup_mem ((x', y') :: rest') (by simp) b
          simp only [List.map_cons] at hmem
          exact h1 _ hmem
        · rw [if_neg ha]
          exact ih (by simpa using hys')

/-- Clipping to the unit interval is monotone. -/
lemma clip01_mono {a b : ℚ} (h : a ≤ b) : clip01 a ≤ clip01 b :=
  max_le_max le_rfl (min_le_min le_rfl h)

/-- Zipping against a pairwise-related list yields a pairwise relation on second
components. -/
lemma pairwise_zip_snd {α β : Type} {R : β → β → Prop} :
    ∀ (xs : List α) {ys : List β}, List.Pairwise R ys →
      List.Pairwise (fun u v : α × β => R u.2 v.2) (xs.zip ys)
  | [], _, _ => by simp
  | _ :: _, [], _ => by simp
  | x :: xs, y :: ys, h => by
    rw [List.pairwise_cons] at h
    rw [List.zip_cons_cons, List.pairwise_cons]
    refine ⟨?_, pairwise_zip_snd xs h.2⟩
    intro p hp
    obtain ⟨a, b⟩ := p
    exact h.1 b (List.of_mem_zip hp).2

/-- C4: the fitted calibration map is non-decreasing — the isotonic fitting pass
itself produces non-decreasing fitted values (no post-hoc correction), and the
forward transform is monotone for all `a ≤ b` in `[0, 1]`. -/
theorem forward_monotone (xs ys : List ℚ) (a b : ℚ)
    (_ha : 0 ≤ a) (_hb : b ≤ 1) (hab : a ≤ b) :
    List.Pairwise (· ≤ ·) (pavaFit ys) ∧
      forward (fitIsotonic xs ys) a ≤ forward (fitIsotonic xs ys) b := by
  refine ⟨pavaFit_sorted ys, clip01_mono (stepLookup_mono _ ?_ hab)⟩
  exact List.pairwise_map.mpr (pairwise_zip_snd xs (pavaFit_sorted ys))

/-- C4 witness: a non-isotonic training target still yields a monotone map. -/
theorem forward_monotone_witness :
    ((0 : ℚ) ≤ 1/4 ∧ (3 : ℚ)/4 ≤ 1 ∧ (1 : ℚ)/4 ≤ 3/4) ∧
      (List.Pairwise (· ≤ ·) (pavaFit [1, 0]) ∧
        forward (fitIsotonic [0, 1] [1, 0]) (1/4) ≤
          forward (fitIsotonic [0, 1] [1, 0]) (3/4)) :=
  ⟨⟨by norm_num, by norm_num, by norm_num⟩,
    forward_monotone [0, 1] [1, 0] (1/4) (3/4) (by norm_num) (by norm_num) (by norm_num)⟩

/-- C7: the forward transform is exactly the fitted map's value clipped to the unit
interval, so every output lies in `[0, 1]`. -/
theorem forward_clipped_bounds (m : List (ℚ × ℚ)) (q : ℚ) :
    forward m q = clip01 (stepLookup m q) ∧ 0 ≤ forward m q ∧ forward m q ≤ 1 := by
  refine ⟨rfl, le_max_left _ _, ?_⟩
  exact max_le (by norm_num) (min_le_left _ _)

/-- On a non-decreasing input the pool-adjacent-violators pass never merges:
the stack is the reversed list of singleton blocks. -/
lemma foldl_push_sorted (l : List ℚ) :
    ∀ st : List (ℚ × ℕ), List.Chain' (· ≤ ·) l →
      (∀ c ∈ st.head?, ∀ y ∈ l.head?, c.1 ≤ y) →
      List.foldl (fun s y => pushBlock (y, 1) s) st l =
        (l.map (fun y => (y, 1))).reverse ++ st := by
  induction l with
  | nil => intro st _ _; simp
  | cons y l ih =>
    intro st hchain hhead
    have hpush : pushBlock (y, 1) st = (y, 1) :: st := by
      cases st with
      | nil => rfl
      | cons c rest =>
        have hc : c.1 ≤ y := hhead c rfl y rfl
        simp only [pushBlock]
        rw [if_neg (not_lt.mpr hc)]
    rw [List.foldl_cons, hpush, ih ((y, 1) :: st) hchain.tail ?_]
    · simp
    · intro c hc y0 hy0
      simp only [List.head?_cons, Option.mem_def, Option.some.injEq] at hc
      subst hc
      exact (List.chain'_cons'.mp hchain).1 y0 hy0

/-- Expanding singleton blocks recovers the original list. -/
lemma expand_one_blocks (l : List ℚ) :
    (l.map (fun y => ((y : ℚ), (1 : ℕ)))).flatMap (fun b => List.replicate b.2 b.1) = l := by
  induction l with
  | nil => rfl
  | cons y l ih => simp [ih]

/-- The isotonic fit of an already non-decreasing target is the target itself. -/
lemma pavaFit_of_sorted (ys : List ℚ) (h : List.Pairwise (· ≤ ·) ys) :
    pavaFit ys = ys := by
  unfold pavaFit pavaBlocks
  rw [foldl_push_sorted ys [] h.chain' (by simp), List.append_nil, List.reverse_reverse]
  exact expand_one_blocks ys

/-- Zipping a pairwise-related list against another yields a pairwise relation on
first components. -/
lemma pairwise_zip_fst {α β : Type} {R : α → α → Prop} :
    ∀ (xs : List α) {ys : List β}, List.Pairwise R xs →
      List.Pairwise (fun u v : α × β => R u.1 v.1) (xs.zip ys)
  | [], _, _ => by simp
  | _ :: _, [], _ => by simp
  | x :: xs, y :: ys, h => by
    rw [List.pairwise_cons] at h
    rw [List.zip_cons_cons, List.pairwise_cons]
    refine ⟨?_, pairwise_zip_fst xs h.2⟩
    intro p hp
    obtain ⟨a, b⟩ := p
    exact h.1 a (List.of_mem_zip hp).1

/-- Inverting the fitted step function and mapping forward again recovers any
probability among the fitted values, for strictly increasing training inputs and
non-decreasing fitted values. -/
lemma stepLookup_roundtrip (pairs : List (ℚ × ℚ))
    (hx : List.Pairwise (fun u v : ℚ × ℚ => u.1 < v.1) pairs)
    (hy : List.Pairwise (fun u v : ℚ × ℚ => u.2 ≤ v.2) pairs)
    (p : ℚ) (hp : p ∈ pairs.map Prod.snd) :
    stepLookup pairs (stepLookup (pairs.map (fun b => (b.2, b.1))) p) = p := by
  induction pairs with
  | nil => simp at hp
  | cons u rest ih =>
    cases rest with
    | nil =>
      obtain ⟨x, y⟩ := u
      simp only [List.map_cons, List.map_nil, List.mem_cons, List.not_mem_nil,
        or_false] at hp
      simp [stepLookup, hp]
    | cons v rest' =>
      obtain ⟨x, y⟩ := u
      obtain ⟨x', y'⟩ := v
      have hxx' : x < x' := (List.pairwise_cons.mp hx).1 (x', y') (List.mem_cons_self _ _)
      have hyy' : y ≤ y' := (List.pairwise_cons.mp hy).1 (x', y') (List.mem_cons_self _ _)
      have hx' := hx.of_cons
      have hy' := hy.of_cons
      simp only [List.map_cons] at hp ⊢
      by_cases hp' : p < y'
      · -- below the second fitted value the inverse returns the first input
        have hpy : p = y := by
          rcases List.mem_cons.mp hp with h | h
          · exact h
          rcases List.mem_cons.mp h with h | h
          · exact absurd (h ▸ hp') (lt_irrefl _)
          · obtain ⟨w, hw, rfl⟩ := List.mem_map.mp h
            exact absurd hp'
              (not_lt.mpr ((List.pairwise_cons.mp hy').1 w hw))
        have h1 : stepLookup ((y, x) :: (y', x') :: rest'.map (fun b => (b.2, b.1))) p
            = x := by
          simp only [stepLookup]
          rw [if_pos hp']
        have h2 : stepLookup ((x, y) :: (x', y') :: rest') x = y := by
          simp only [stepLookup]
          rw [if_pos hxx']
        rw [h1, h2, hpy]
      · -- otherwise recurse into the tail on both sides
        have h1 : stepLookup ((y, x) :: (y', x') :: rest'.map (fun b => (b.2, b.1))) p
            = stepLookup ((y', x') :: rest'.map (fun b => (b.2, b.1))) p := by
          simp only [stepLookup]
          rw [if_neg hp']
        have hpmem : p ∈ y' :: rest'.map Prod.snd := by
          rcases List.mem_cons.mp hp with h | h
          · have : p = y' := le_antisymm (h ▸ hyy') (le_of_not_lt hp')
            exact this ▸ List.mem_cons_self _ _
          · exact h
        have hwge : ¬ stepLookup ((y', x') :: rest'.map (fun b => (b.2, b.1))) p < x' := by
          have hmem := stepLookup_mem ((y', x') :: rest'.map (fun b => (b.2, b.1)))
            (by simp) p
          simp only [List.map_cons, List.map_map, List.mem_cons] at hmem
          rcases hmem with h | h
          · rw [h]
            exact lt_irrefl _
          · obtain ⟨w, hw, hww⟩ := List.mem_map.mp h
            have : x' < w.1 := (List.pairwise_cons.mp hx').1 w hw
            rw [← hww]
            exact not_lt.mpr (le_of_lt this)
        have h2 : stepLookup ((x, y) :: (x', y') :: rest')
            (stepLookup ((y', x') :: rest'.map (fun b => (b.2, b.1))) p)
            = stepLookup ((x', y') :: rest')
              (stepLookup ((y', x') :: rest'.map (fun b => (b.2, b.1))) p) := by
          simp only [stepLookup]
          rw [if_neg hwge]
        have hih := ih hx' hy' (by simpa using hpmem)
        simp only [List.map_cons] at hih
        rw [h1, h2, hih]

/-- C5: for every probability in the observed empirical-fraction training set, the
inverse and forward transforms of the fitted calibration map round-trip exactly. -/
theorem forward_inverse_roundtrip (qs : List ℚ) (hqs : qs ≠ []) (p : ℚ)
    (hp : p ∈ observed_uncalibrated qs) :
    forward (fitIsotonic expected_quantiles (observed_uncalibrated qs))
      (inverse (fitIsotonic expected_quantiles (observed_uncalibrated qs)) p) = p := by
  have hsorted := observed_uncalibrated_sorted qs
  have hfitIso : fitIsotonic expected_quantiles (observed_uncalibrated qs)
      = expected_quantiles.zip (observed_uncalibrated qs) := by
    rw [fitIsotonic, pavaFit_of_sorted _ hsorted]
  have hlen : (observed_uncalibrated qs).length ≤ expected_quantiles.length := by
    simp [observed_uncalibrated, empirical_cdf_at]
  have hmem : p ∈ (expected_quantiles.zip (observed_uncalibrated qs)).map Prod.snd := by
    rw [List.map_snd_zip _ _ hlen]
    exact hp
  have hxzip : List.Pairwise (fun u v : ℚ × ℚ => u.1 < v.1)
      (expected_quantiles.zip (observed_uncalibrated qs)) :=
    pairwise_zip_fst expected_quantiles expected_quantiles_strict_sorted
  have hyzip : List.Pairwise (fun u v : ℚ × ℚ => u.2 ≤ v.2)
      (expected_quantiles.zip (observed_uncalibrated qs)) :=
    pairwise_zip_snd expected_quantiles hsorted
  have hround := stepLookup_roundtrip _ hxzip hyzip p hmem
  have hbounds := observed_uncalibrated_bounds qs hqs p hp
  rw [hfitIso, forward, inverse, hround, clip01, min_eq_right hbounds.2,
    max_eq_right hbounds.1]

/-- C5 witness: a single observation with quantile one half; the fraction 1 is in
the training set and round-trips. -/
theorem forward_inverse_roundtrip_witness :
    (([(1 : ℚ)/2] : List ℚ) ≠ [] ∧ (1 : ℚ) ∈ observed_uncalibrated [(1 : ℚ)/2]) ∧
      forward (fitIsotonic expected_quantiles (observed_uncalibrated [(1 : ℚ)/2]))
        (inverse (fitIsotonic expected_quantiles (observed_uncalibrated [(1 : ℚ)/2])) 1)
        = 1 :=
  ⟨⟨by norm_num,
      by norm_num [observed_uncalibrated, empirical_cdf_at, expected_quantiles,
        List.range_succ, List.countP_cons]⟩,
    forward_inverse_roundtrip [(1 : ℚ)/2] (by norm_num) 1
      (by norm_num [observed_uncalibrated, empirical_cdf_at, expected_quantiles,
        List.range_succ, List.countP_cons])⟩

/-- Modelled from the spec: the error signalled when fewer than two distinct
raw-quantile values are available to fit against (spec section 7; no error types
exist in the source tree). -/
inductive CalibrationUnavailableError : Type
  | fewerThanTwoDistinct
deriving DecidableEq

/-- Modelled from the spec: the error signalled on an empty sample set or an
observation count mismatched with the sample array shape (spec section 7). -/
inductive InvalidInputError : Type
  | emptySampleSet
  | sizeMismatch
deriving DecidableEq

/-- Modelled from the spec: the Calibration Fitter entry point — fitting fails with
`CalibrationUnavailableError` when fewer than 2 distinct raw-quantile values exist,
and otherwise fits the isotonic map on the observed empirical fractions. -/
def fitCalibration (predicted : List ℚ) :
    Except CalibrationUnavailableError (List (ℚ × ℚ)) :=
  if (predicted.dedup).length < 2 then .error .fewerThanTwoDistinct
  else .ok (fitIsotonic expected_quantiles (observed_uncalibrated predicted))

/-- Modelled from the spec: a forward call in the unavailable state returns the
identity transform, the error having signalled the condition to the caller. -/
def forwardOrIdentity (r : Except CalibrationUnavailableError (List (ℚ × ℚ)))
    (q : ℚ) : ℚ :=
  match r with
  | .error _ => q
  | .ok m => forward m q

/-- Modelled from the spec: an inverse call in the unavailable state returns the
identity transform. -/
def inverseOrIdentity (r : Except CalibrationUnavailableError (List (ℚ × ℚ)))
    (p : ℚ) : ℚ :=
  match r with
  | .error _ => p
  | .ok m => inverse m p

/-- C6: with fewer than 2 distinct raw quantile values, fitting returns the
`CalibrationUnavailableError` signal instead of crashing, and forward/inverse calls
in that state are the identity transform. -/
theorem fitCalibration_unavailable (predicted : List ℚ)
    (h : (predicted.dedup).length < 2) :
    fitCalibration predicted = .error .fewerThanTwoDistinct ∧
      (∀ q, forwardOrIdentity (fitCalibration predicted) q = q) ∧
      (∀ p, inverseOrIdentity (fitCalibration predicted) p = p) := by
  have hfit : fitCalibration predicted
      = Except.error CalibrationUnavailableError.fewerThanTwoDistinct := by
    rw [fitCalibration, if_pos h]
  exact ⟨hfit, fun q => by rw [hfit]; rfl, fun p => by rw [hfit]; rfl⟩

/-- C6 witness: all raw quantiles equal to one half. -/
theorem fitCalibration_unavailable_witness :
    (([(1 : ℚ)/2, 1/2, 1/2].dedup).length < 2) ∧
      (fitCalibration [(1 : ℚ)/2, 1/2, 1/2]
          = .error .fewerThanTwoDistinct ∧
        (∀ q, forwardOrIdentity (fitCalibration [(1 : ℚ)/2, 1/2, 1/2]) q = q) ∧
        (∀ p, inverseOrIdentity (fitCalibration [(1 : ℚ)/2, 1/2, 1/2]) p = p)) :=
  ⟨by norm_num [List.dedup_cons_of_mem, List.dedup_cons_of_not_mem],
    fitCalibration_unavailable [(1 : ℚ)/2, 1/2, 1/2]
      (by norm_num [List.dedup_cons_of_mem, List.dedup_cons_of_not_mem])⟩

/-- Modelled from the spec: boundary input validation for the quantile-estimation
stage (spec sections 6 and 7) — the sample array must be non-empty, every
observation needs a non-empty sample set, and the observation count must match the
sample array shape; valid input yields the predictive quantiles. -/
def estimateQuantiles (ys : List ℚ) (sampleSets : List (List ℚ)) :
    Except InvalidInputError (List ℚ) :=
  if sampleSets.isEmpty || sampleSets.any List.isEmpty then .error .emptySampleSet
  else if ys.length ≠ sampleSets.length then .error .sizeMismatch
  else .ok (List.zipWith (fun y s => predictive_quantile s y) ys sampleSets)

/-- C8: an empty sample set or a mismatched observation count is rejected at the
validation boundary with an `InvalidInputError`, surfaced directly to the caller. -/
theorem estimateQuantiles_invalid (ys : List ℚ) (sampleSets : List (List ℚ))
    (h : (sampleSets.isEmpty || sampleSets.any List.isEmpty) = true ∨
      ys.length ≠ sampleSets.length) :
    ∃ e : InvalidInputError, estimateQuantiles ys sampleSets = .error e := by
  by_cases h0 : (sampleSets.isEmpty || sampleSets.any List.isEmpty) = true
  · exact ⟨.emptySampleSet, by rw [estimateQuantiles, if_pos h0]⟩
  · rcases h with h | h
    · exact absurd h h0
    · exact ⟨.sizeMismatch, by rw [estimateQuantiles, if_neg h0, if_pos h]⟩

/-- C8 witness: an empty sample array is rejected. -/
theorem estimateQuantiles_invalid_witness :
    ((List.isEmpty ([] : List (List ℚ)) || List.any ([] : List (List ℚ)) List.isEmpty)
        = true ∨ List.length [(0 : ℚ)] ≠ List.length ([] : List (List ℚ))) ∧
      ∃ e : InvalidInputError, estimateQuantiles [(0 : ℚ)] [] = .error e :=
  ⟨Or.inl (by decide), estimateQuantiles_invalid [(0 : ℚ)] [] (Or.inl (by decide))⟩

end CalibratedUncertainty
